import Mathlib

/-!
# Verification of the periodic geometry engine (`sids/geometry.py`)

A shallow embedding of the `Geometry` class of `sids/geometry.py` together
with proofs about its index mapper (`a2o`, `o2a`), neighbour search
(`close_sc`, `close`) and lattice-transform operations (`sub`, `remove`,
`cut`, `tile`, `repeat`, `mirror`).

Modelling conventions:
* `numpy` float arrays of shape (n,3) become `List Vec3` with `Vec3` a record
  of three rationals; machine floats are modelled by exact rationals.
* The Euclidean norm comparison `sqrt q ≤ r` performed by the source is
  encoded without square roots as `0 ≤ r ∧ q ≤ r * r`, which is equivalent
  for the nonnegative radicand `q` that always arises; strict comparisons
  are the boolean negations, exactly as `<` is `¬ ≥` on floats here.
* Fallible methods (`ValueError` raises) return `Except String`.
* The `SuperCell` collaborator (`sids/supercell.py`, not part of the sources
  being verified) is modelled from the spec where its behaviour is needed.
-/

/-- A 3-component coordinate vector (one row of an `(n,3)` numpy array). -/
structure Vec3 where
  x : ℚ
  y : ℚ
  z : ℚ
deriving DecidableEq

instance : Add Vec3 := ⟨fun a b => ⟨a.x + b.x, a.y + b.y, a.z + b.z⟩⟩

instance : Sub Vec3 := ⟨fun a b => ⟨a.x - b.x, a.y - b.y, a.z - b.z⟩⟩

instance : Neg Vec3 := ⟨fun a => ⟨-a.x, -a.y, -a.z⟩⟩

instance : SMul ℚ Vec3 := ⟨fun c a => ⟨c * a.x, c * a.y, c * a.z⟩⟩

@[simp] theorem Vec3.add_def (a b : Vec3) :
    a + b = ⟨a.x + b.x, a.y + b.y, a.z + b.z⟩ := rfl

@[simp] theorem Vec3.sub_def (a b : Vec3) :
    a - b = ⟨a.x - b.x, a.y - b.y, a.z - b.z⟩ := rfl

@[simp] theorem Vec3.neg_def (a : Vec3) : -a = ⟨-a.x, -a.y, -a.z⟩ := rfl

@[simp] theorem Vec3.smul_def (c : ℚ) (a : Vec3) :
    c • a = ⟨c * a.x, c * a.y, c * a.z⟩ := rfl

/-- The zero vector, used as an out-of-range default. -/
def vzero : Vec3 := ⟨0, 0, 0⟩

/-- Squared Euclidean norm: `dxa[:,0]**2 + dxa[:,1]**2 + dxa[:,2]**2`. -/
def sqNorm (v : Vec3) : ℚ := v.x * v.x + v.y * v.y + v.z * v.z

/-- `sqrt (sqNorm v) ≤ r`, encoded without square roots: for the
nonnegative quantity `sqNorm v` this is `0 ≤ r ∧ sqNorm v ≤ r²`.
This is the comparison `xaR <= dR` of `close_sc`. -/
def normLe (v : Vec3) (r : ℚ) : Bool := decide (0 ≤ r) && decide (sqNorm v ≤ r * r)

/-- `dR < sqrt (sqNorm v)`, i.e. the boolean negation of `normLe`
(the comparison `ddR[i-1] < xaR` of `close_sc`). -/
def normGt (v : Vec3) (r : ℚ) : Bool := ! normLe v r

theorem sqNorm_nonneg (v : Vec3) : 0 ≤ sqNorm v := by
  have hx := mul_self_nonneg v.x
  have hy := mul_self_nonneg v.y
  have hz := mul_self_nonneg v.z
  unfold sqNorm; linarith

/-- Monotonicity of the encoded norm comparison in the radius. -/
theorem normLe_mono {v : Vec3} {r r' : ℚ} (hrr : r ≤ r') (h : normLe v r = true) :
    normLe v r' = true := by
  unfold normLe at h ⊢
  simp only [Bool.and_eq_true, decide_eq_true_eq] at h ⊢
  obtain ⟨h0, hsq⟩ := h
  refine ⟨le_trans h0 hrr, le_trans hsq ?_⟩
  have := mul_le_mul hrr hrr h0 (le_trans h0 hrr)
  linarith

/-- Inclusive prefix sums, `np.cumsum`. -/
def cumsum : List ℕ → List ℕ
  | [] => []
  | x :: xs => x :: (cumsum xs).map (x + ·)

@[simp] theorem cumsum_length (l : List ℕ) : (cumsum l).length = l.length := by
  induction l with
  | nil => rfl
  | cons x xs ih => simp [cumsum, ih]

/-- `getD` commutes with `map` at in-range indices (defaults irrelevant). -/
theorem getD_map_inrange {α β : Type} (f : α → β) :
    ∀ (l : List α) (n : ℕ), n < l.length → ∀ (d : β) (d' : α),
      (l.map f).getD n d = f (l.getD n d') := by
  intro l
  induction l with
  | nil => intro n h; simp at h
  | cons a as ih =>
    intro n h d d'
    match n with
    | 0 => rfl
    | Nat.succ n' =>
      have h' : n' < as.length := Nat.lt_of_succ_lt_succ h
      simpa [List.getD] using ih n' h' d d'

theorem getD_eq_get {α : Type} (l : List α) (j : ℕ) (h : j < l.length) (d : α) :
    l.getD j d = l.get ⟨j, h⟩ := by
  rw [List.getD_eq_getElem?_getD, List.getElem?_eq_getElem h]
  rfl

theorem cumsum_getD :
    ∀ (l : List ℕ) (k : ℕ), k < l.length →
      (cumsum l).getD k 0 = (l.take (k + 1)).sum := by
  intro l
  induction l with
  | nil => intro k hk; simp at hk
  | cons x xs ih =>
    intro k hk
    match k with
    | 0 => simp [cumsum, List.getD]
    | Nat.succ k' =>
      have hk' : k' < xs.length := Nat.lt_of_succ_lt_succ hk
      have hmap : (((cumsum xs).map (x + ·)).getD k' 0) = x + (cumsum xs).getD k' 0 := by
        exact getD_map_inrange (x + ·) (cumsum xs) k' (by simpa using hk') 0 0
      calc (cumsum (x :: xs)).getD (k' + 1) 0
          = ((cumsum xs).map (x + ·)).getD k' 0 := by simp [cumsum, List.getD]
        _ = x + (cumsum xs).getD k' 0 := hmap
        _ = x + (xs.take (k' + 1)).sum := by rw [ih k' hk']
        _ = ((x :: xs).take (k' + 1 + 1)).sum := by simp

/-- The `k`-th inclusive prefix sum of `0 :: xs` is the sum of the first `k`
entries of `xs` (`k ≤ xs.length`). -/
theorem cumsum_zero_cons_getD (xs : List ℕ) (k : ℕ) (hk : k ≤ xs.length) :
    (cumsum (0 :: xs)).getD k 0 = (xs.take k).sum := by
  have h : k < (0 :: xs).length := by simpa using Nat.lt_succ_of_le hk
  rw [cumsum_getD (0 :: xs) k h]
  simp

/-- First index at which a boolean list is `true` (`none` when all entries
are `false`). -/
def firstTrue : List Bool → Option ℕ
  | [] => none
  | b :: xs => if b then some 0 else (firstTrue xs).map (· + 1)

/-- `np.argmax` on a boolean vector: the index of the first `true`,
`0` when every entry is `false`. -/
def npArgmaxBool (l : List Bool) : ℕ := (firstTrue l).getD 0

theorem firstTrue_spec :
    ∀ (l : List Bool) (i : ℕ), firstTrue l = some i →
      i < l.length ∧ l.getD i false = true ∧ ∀ j, j < i → l.getD j false = false := by
  intro l
  induction l with
  | nil => intro i h; simp [firstTrue] at h
  | cons b xs ih =>
    intro i h
    by_cases hb : b
    · simp [firstTrue, hb] at h
      subst h
      exact ⟨Nat.succ_pos _, by simp [hb], fun j hj => absurd hj (Nat.not_lt_zero j)⟩
    · simp [firstTrue, hb] at h
      obtain ⟨i', hi', rfl⟩ := h
      obtain ⟨h1, h2, h3⟩ := ih i' hi'
      refine ⟨by simpa using Nat.succ_lt_succ h1, by simpa using h2, ?_⟩
      intro j hj
      match j with
      | 0 => simpa using hb
      | Nat.succ j' =>
        have : j' < i' := Nat.lt_of_succ_lt_succ hj
        simpa using h3 j' this

theorem firstTrue_isSome_of_mem {l : List Bool} (h : true ∈ l) :
    ∃ i, firstTrue l = some i := by
  induction l with
  | nil => simp at h
  | cons b xs ih =>
    by_cases hb : b
    · exact ⟨0, by simp [firstTrue, hb]⟩
    · have hx : true ∈ xs := by
        rcases List.mem_cons.mp h with h1 | h1
        · exact absurd h1.symm hb
        · exact h1
      obtain ⟨i, hi⟩ := ih hx
      exact ⟨i + 1, by simp [firstTrue, hb, hi]⟩

/-- `np.amax` over a nonempty list (`0` on the empty list, where numpy
would raise). -/
def npAmax : List ℚ → ℚ
  | [] => 0
  | x :: xs => xs.foldl max x

/-- An atomic species: per-species orbital count and interaction cutoff
radius (the `Atom` collaborator data consumed by the engine). -/
structure Atom where
  orbs : ℕ
  dR : ℚ
deriving DecidableEq

/-- The unit-cell collaborator: lattice vectors (rows) and the ordered
enumeration of periodic replica offsets (`sc_off`). -/
structure SuperCell where
  cell : Fin 3 → Vec3
  sc_off : List (ℤ × ℤ × ℤ)

/-- Modelled from the spec: `SuperCell.offset` (collaborator whose source is
not under `src/`) — the offset vector of a replica is the integer
combination of the cell rows given by the replica's integer triple. -/
def SuperCell.offset (sc : SuperCell) (isc : ℤ × ℤ × ℤ) : Vec3 :=
  (isc.1 : ℚ) • sc.cell 0 + (isc.2.1 : ℚ) • sc.cell 1 + (isc.2.2 : ℚ) • sc.cell 2

/-- Modelled from the spec: `SuperCell.cut parts axis` (collaborator whose
source is not under `src/`) shrinks the cell along `axis` by the factor
`parts`; the replica enumeration is unchanged. -/
def SuperCell.cut (sc : SuperCell) (seps : ℕ) (axis : Fin 3) : SuperCell :=
  { sc with cell := Function.update sc.cell axis (((seps : ℚ))⁻¹ • sc.cell axis) }

/-- The structure store: coordinates, species and the owned unit cell
(the data held by `Geometry.__init__`; all derived fields are recomputed
functions below, mirroring their recomputation on construction). -/
structure Geometry where
  xyz : List Vec3
  atoms : List Atom
  sc : SuperCell

namespace Geometry

/-- `self.na = len(self.xyz)`. -/
def na (g : Geometry) : ℕ := g.xyz.length

/-- Per-atom orbital counts, `orbs = np.array([a.orbs for a in self.atoms])`. -/
def orbs (g : Geometry) : List ℕ := g.atoms.map Atom.orbs

/-- `self.no = np.sum(orbs)`. -/
def no (g : Geometry) : ℕ := g.orbs.sum

/-- `self.lasto = np.cumsum(np.append(0, orbs))`. -/
def lasto (g : Geometry) : List ℕ := cumsum (0 :: g.orbs)

/-- `self.dR = np.amax([a.dR for a in ...])`, the maximum interaction range. -/
def dR (g : Geometry) : ℚ := npAmax (g.atoms.map Atom.dR)

/-- Number of periodic replicas exposed by the unit-cell collaborator. -/
def n_s (g : Geometry) : ℕ := g.sc.sc_off.length

/-- The cell rows, as exposed through `SuperCellChild`. -/
def cell (g : Geometry) : Fin 3 → Vec3 := g.sc.cell

/-- `Geometry.a2o` with `all=False`:
`self.lasto[ia % self.na] + (ia // self.na) * self.no`
(first orbital of a supercell-qualified atom index; the vectorised
`all=True` branch only batches calls of this formula and is not modelled). -/
def a2o (g : Geometry) (ia : ℕ) : ℕ :=
  g.lasto.getD (ia % g.na) 0 + (ia / g.na) * g.no

/-- `Geometry.o2a`:
`rlasto = self.lasto[::-1]`, `a = self.na - np.argmax(rlasto <= io % no)`,
returned as `a + (io // self.no) * self.na`. -/
def o2a (g : Geometry) (io : ℕ) : ℕ :=
  (g.na - npArgmaxBool (g.lasto.reverse.map (fun v => decide (v ≤ io % g.no))))
    + (io / g.no) * g.na

end Geometry

theorem getD_reverse {α : Type} (l : List α) (j : ℕ) (h : j < l.length) (d : α) :
    l.reverse.getD j d = l.getD (l.length - 1 - j) d := by
  simp [List.getD_eq_getElem?_getD, List.getElem?_reverse h]

theorem lasto_length (g : Geometry) : g.lasto.length = g.orbs.length + 1 := by
  simp [Geometry.lasto, cumsum_length]

theorem lasto_getD (g : Geometry) (k : ℕ) (hk : k ≤ g.orbs.length) :
    g.lasto.getD k 0 = (g.orbs.take k).sum :=
  cumsum_zero_cons_getD g.orbs k hk

theorem orbs_length (g : Geometry) (hwf : g.atoms.length = g.xyz.length) :
    g.orbs.length = g.na := by
  simp [Geometry.orbs, Geometry.na, hwf]

/-- The characterisation of `o2a`: writing `io = iio + rep·no`, the result is
`m + rep·na` where `m` is the in-cell atom owning orbital `iio`:
`lasto[m] ≤ iio < lasto[m+1]` with `m < na`. -/
theorem o2a_char (g : Geometry) (hwf : g.atoms.length = g.xyz.length)
    (io : ℕ) (hno : 0 < g.no) :
    ∃ m : ℕ, g.o2a io = m + (io / g.no) * g.na ∧ m < g.na ∧
      g.lasto.getD m 0 ≤ io % g.no ∧ io % g.no < g.lasto.getD (m + 1) 0 := by
  have horb : g.orbs.length = g.na := orbs_length g hwf
  have hna : 0 < g.na := by
    by_contra h
    have h0 : g.na = 0 := Nat.eq_zero_of_not_pos h
    have : g.orbs = [] := List.length_eq_zero.mp (by rw [horb, h0])
    have : g.no = 0 := by simp [Geometry.no, this]
    omega
  set iio := io % g.no with hiio_def
  have hiio : iio < g.no := Nat.mod_lt io hno
  set L := g.lasto.reverse.map (fun v => decide (v ≤ iio)) with hL_def
  have hLlen : L.length = g.na + 1 := by
    simp [hL_def, lasto_length, horb]
  -- the last entry of `L` is true, since `lasto[0] = 0 ≤ iio`
  have hlast : L.getD g.na false = true := by
    have h1 : g.na < g.lasto.reverse.length := by
      simp [lasto_length, horb]
    rw [hL_def, getD_map_inrange _ g.lasto.reverse g.na h1 false 0]
    rw [getD_reverse g.lasto g.na (by simpa using h1) 0]
    have : g.lasto.length - 1 - g.na = 0 := by
      rw [lasto_length, horb]; omega
    rw [this, lasto_getD g 0 (Nat.zero_le _)]
    simp
  have hmem : true ∈ L := by
    have h1 : g.na < L.length := by omega
    have h3 : L.getD g.na false = L.get ⟨g.na, h1⟩ := getD_eq_get L g.na h1 false
    rw [h3] at hlast
    rw [← hlast]
    exact List.get_mem L _ _
  obtain ⟨j, hj⟩ := firstTrue_isSome_of_mem hmem
  obtain ⟨hjlen, hjtrue, hjmin⟩ := firstTrue_spec L j hj
  -- `j ≥ 1`: the first entry of `L` is `no ≤ iio`, which is false
  have hj1 : 1 ≤ j := by
    by_contra h
    have hj0 : j = 0 := by omega
    subst hj0
    have h1 : (0 : ℕ) < g.lasto.reverse.length := by
      simp [lasto_length]
    rw [hL_def, getD_map_inrange _ g.lasto.reverse 0 h1 false 0] at hjtrue
    rw [getD_reverse g.lasto 0 (by simpa using h1) 0] at hjtrue
    have he : g.lasto.length - 1 - 0 = g.orbs.length := by
      rw [lasto_length]; omega
    rw [he, lasto_getD g g.orbs.length (le_refl _)] at hjtrue
    simp only [List.take_length, decide_eq_true_eq] at hjtrue
    have : g.no ≤ iio := hjtrue
    omega
  have hjna : j ≤ g.na := by omega
  refine ⟨g.na - j, ?_, by omega, ?_, ?_⟩
  · -- the value of `o2a`
    simp only [Geometry.o2a, npArgmaxBool, ← hiio_def, ← hL_def, hj, Option.getD_some]
  · -- `lasto[m] ≤ iio`
    have h1 : j < g.lasto.reverse.length := by
      simp only [List.length_reverse]; rw [lasto_length, horb]; omega
    rw [hL_def, getD_map_inrange _ g.lasto.reverse j h1 false 0] at hjtrue
    rw [getD_reverse g.lasto j (by simpa using h1) 0] at hjtrue
    have he : g.lasto.length - 1 - j = g.na - j := by
      rw [lasto_length, horb]; omega
    rw [he] at hjtrue
    exact decide_eq_true_eq.mp hjtrue
  · -- `iio < lasto[m+1]`
    have hfalse := hjmin (j - 1) (by omega)
    have h1 : j - 1 < g.lasto.reverse.length := by
      simp only [List.length_reverse]; rw [lasto_length, horb]; omega
    rw [hL_def, getD_map_inrange _ g.lasto.reverse (j - 1) h1 false 0] at hfalse
    rw [getD_reverse g.lasto (j - 1) (by simpa using h1) 0] at hfalse
    have he : g.lasto.length - 1 - (j - 1) = g.na - j + 1 := by
      rw [lasto_length, horb]; omega
    rw [he] at hfalse
    have : ¬ (g.lasto.getD (g.na - j + 1) 0 ≤ iio) := by
      simpa using hfalse
    omega

/-- Worked example with two atoms of differing orbital counts (2 and 1)
and two periodic replicas. -/
def exO : Geometry :=
  { xyz := [⟨0, 0, 0⟩, ⟨(1 : ℚ)/2, 0, 0⟩]
    atoms := [⟨2, 1⟩, ⟨1, 1⟩]
    sc := { cell := fun i => if i.val = 0 then ⟨1, 0, 0⟩
              else if i.val = 1 then ⟨0, 1, 0⟩ else ⟨0, 0, 1⟩
            sc_off := [(0, 0, 0), (1, 0, 0)] } }

/-- **C1.** For every supercell-qualified atom index `ia < na * n_s`,
`a2o` (with `all=False`) returns
`orbital_offsets[ia % na] + (ia // na) * total_orbitals`, where the orbital
offset of atom `k` is the sum of the orbital counts of the first `k` atoms
and `total_orbitals` is the sum of all orbital counts. -/
theorem claim_C1_a2o_first_orbital (g : Geometry)
    (hwf : g.atoms.length = g.xyz.length) (ia : ℕ) (hia : ia < g.na * g.n_s) :
    g.a2o ia = (g.orbs.take (ia % g.na)).sum + (ia / g.na) * g.orbs.sum := by
  have hna : 0 < g.na := by
    rcases Nat.eq_zero_or_pos g.na with h | h
    · rw [h] at hia; simp at hia
    · exact h
  have hmod : ia % g.na < g.na := Nat.mod_lt ia hna
  have horb : g.orbs.length = g.na := orbs_length g hwf
  unfold Geometry.a2o
  rw [lasto_getD g (ia % g.na) (by omega)]
  rfl

/-- Witness for C1 at `exO` (orbital counts `[2,1]`, two replicas),
`ia = 3` (atom 1 of replica 1). -/
theorem claim_C1_witness :
    exO.atoms.length = exO.xyz.length ∧ 3 < exO.na * exO.n_s ∧
      exO.a2o 3 = (exO.orbs.take (3 % exO.na)).sum + (3 / exO.na) * exO.orbs.sum :=
  ⟨by decide, by decide, claim_C1_a2o_first_orbital exO (by decide) 3 (by decide)⟩

/-- A neighbour-search query: either a point in space or an atom index
(`xyz_ia` of `close_sc`/`close`). -/
inductive Query where
  | point (p : Vec3)
  | atom (ia : ℕ)

namespace Geometry

/-- The coordinate a query resolves to: `self.xyz[xyz_ia,:]` for an atom
index, the point itself otherwise. -/
def qpos (g : Geometry) : Query → Vec3
  | .point p => p
  | .atom ia => g.xyz.getD ia vzero

/-- `Geometry.coords(isc, idx)`: the (optionally restricted) atomic
coordinates shifted by the offset vector of replica `isc`. -/
def coords (g : Geometry) (isc : ℤ × ℤ × ℤ) (idx : Option (List ℕ)) : List Vec3 :=
  match idx with
  | none => g.xyz.map (fun p => p + g.sc.offset isc)
  | some l => (l.map (fun i => g.xyz.getD i vzero)).map (fun p => p + g.sc.offset isc)

end Geometry

/-- Return shape of `close_sc`: a plain index array for a single radius, a
list of per-shell index arrays for several radii. -/
inductive SCRet where
  | single (idx : List ℕ)
  | multi (groups : List (List ℕ))
deriving DecidableEq

/-- `np.any(np.diff(ddR) < 0.)`: some adjacent difference is negative. -/
def npDiffNeg : List ℚ → Bool
  | a :: b :: rest => decide (b - a < 0) || npDiffNeg (b :: rest)
  | _ => false

namespace Geometry

/-- `Geometry.close_sc` (indices-only form; the `ret_coord`/`ret_dist`
variants only append shell-aligned coordinate/distance arrays and are not
modelled): one distance evaluation per candidate against the outer radius,
then shells carved out of that single result.  Raises for several radii
that are not ascending (`np.any(np.diff(ddR) < 0.)`). -/
def close_sc (g : Geometry) (xyz_ia : Query) (isc : ℤ × ℤ × ℤ)
    (dR : Option (List ℚ)) (idx : Option (List ℕ)) : Except String SCRet :=
  let ddR : List ℚ := match dR with | none => [g.dR] | some l => l
  let off := g.qpos xyz_ia
  let dxa : List Vec3 := (g.coords isc idx).map (fun r => r - off)
  let ix : List ℕ :=
    (List.range dxa.length).filter (fun p => normLe (dxa.getD p vzero) (ddR.getLastD 0))
  let retIdx : List ℕ → List ℕ := fun pos =>
    match idx with
    | none => pos
    | some l => pos.map (fun p => l.getD p 0)
  if ddR.length = 1 then .ok (.single (retIdx ix))
  else if npDiffNeg ddR then
    .error "Proximity checks for several quantities at a time requires ascending dR values."
  else
    let g0 := ix.filter (fun p => normLe (dxa.getD p vzero) (ddR.getD 0 0))
    let shells := (List.range (ddR.length - 1)).map (fun i =>
      ix.filter (fun p =>
        normGt (dxa.getD p vzero) (ddR.getD i 0) && normLe (dxa.getD p vzero) (ddR.getD (i + 1) 0)))
    .ok (.multi (retIdx g0 :: shells.map retIdx))

end Geometry

/-- Return shape of `close`: `noneR` is the never-initialised accumulator
(Python `None`), otherwise as `SCRet`. -/
inductive CloseRet where
  | noneR
  | singleR (idx : List ℕ)
  | multiR (groups : List (List ℕ))
deriving DecidableEq

namespace Geometry

/-- One loop iteration of `close`: merge the per-replica result `sret` of
replica number `s` into the accumulator, offsetting indices by `na * s`.
Empty single-radius results are skipped; multi-shell results initialise the
accumulator even when empty.  The mixed constructor cases cannot arise
(the shape of `close_sc`'s result depends only on `dR`) and return the
accumulator's own data unchanged. -/
def closeStep (g : Geometry) (acc : CloseRet) (s : ℕ) (sret : SCRet) : CloseRet :=
  match sret with
  | .multi gs =>
    match acc with
    | .noneR => .multiR (gs.map (fun x => x.map (fun j => j + g.na * s)))
    | .multiR accGs =>
        .multiR (List.zipWith (· ++ ·) accGs (gs.map (fun x => x.map (fun j => j + g.na * s))))
    | .singleR l => .singleR l
  | .single l =>
    if l.isEmpty then acc
    else
      match acc with
      | .noneR => .singleR (l.map (fun j => j + g.na * s))
      | .singleR accL => .singleR (accL ++ l.map (fun j => j + g.na * s))
      | .multiR gs => .multiR gs

/-- The `for s in range(self.n_s)` loop of `close`, with explicit
accumulator; a raise from `close_sc` aborts the loop. -/
def closeLoop (g : Geometry) (q : Query) (dR : Option (List ℚ)) (idx : Option (List ℕ)) :
    List ℕ → CloseRet → Except String CloseRet
  | [], acc => .ok acc
  | s :: ss, acc =>
    match g.close_sc q (g.sc.sc_off.getD s (0, 0, 0)) dR idx with
    | .error e => .error e
    | .ok sret => g.closeLoop q dR idx ss (g.closeStep acc s sret)

/-- `Geometry.close`: per-replica `close_sc` results merged into
supercell-qualified indices over the replica enumeration. -/
def close (g : Geometry) (q : Query) (dR : Option (List ℚ)) (idx : Option (List ℕ)) :
    Except String CloseRet :=
  g.closeLoop q dR idx (List.range g.n_s) .noneR

end Geometry

/-- The shell groups of a `close_sc` result (a single-radius result is the
one-group list). -/
def groupsOf : Except String SCRet → List (List ℕ)
  | .ok (.single l) => [l]
  | .ok (.multi gs) => gs
  | .error _ => []

/-- The index array of a single-radius `close_sc` result. -/
def scSingle : Except String SCRet → List ℕ
  | .ok (.single l) => l
  | _ => []

/-- Displacement of candidate atom `j`, shifted into replica `isc`, from the
query position. -/
def dvec (g : Geometry) (q : Query) (isc : ℤ × ℤ × ℤ) (j : ℕ) : Vec3 :=
  g.xyz.getD j vzero + g.sc.offset isc - g.qpos q

/-- Claim-side distance condition: candidate atom `j`, shifted into replica
`isc`, lies within distance `r` of the query (same square-root-free
encoding as `normLe`). -/
def withinR (g : Geometry) (q : Query) (isc : ℤ × ℤ × ℤ) (j : ℕ) (r : ℚ) : Prop :=
  normLe (dvec g q isc j) r = true

instance (g : Geometry) (q : Query) (isc : ℤ × ℤ × ℤ) (j : ℕ) (r : ℚ) :
    Decidable (withinR g q isc j r) := by
  unfold withinR; infer_instance

/-- **C2.** Round-trip: for every valid supercell-qualified orbital index
`o < no * n_s`, with `a = o2a o`, the first-orbital index `a2o a` lies in the
recovered atom's orbital range
`[orbital_offsets[a % na], orbital_offsets[a % na + 1])` shifted by the
replica block `(a / na) * no`, and `a`'s replica equals `o`'s replica.
The statement is fully general, covering single-atom structures and atoms
with differing orbital counts. -/
theorem claim_C2_roundtrip (g : Geometry)
    (hwf : g.atoms.length = g.xyz.length) (o : ℕ) (ho : o < g.no * g.n_s)
    (a : ℕ) (ha : a = g.o2a o) :
    ((g.orbs.take (a % g.na)).sum + (a / g.na) * g.no ≤ g.a2o a ∧
      g.a2o a < (g.orbs.take (a % g.na + 1)).sum + (a / g.na) * g.no) ∧
      a / g.na = o / g.no := by
  have hno : 0 < g.no := by
    rcases Nat.eq_zero_or_pos g.no with h | h
    · rw [h] at ho; simp at ho
    · exact h
  obtain ⟨m, hval, hm, hle, hlt⟩ := o2a_char g hwf o hno
  have horb : g.orbs.length = g.na := orbs_length g hwf
  have hna : 0 < g.na := by omega
  subst ha
  rw [hval]
  have hmod : (m + o / g.no * g.na) % g.na = m := by
    rw [Nat.add_mul_mod_self_right, Nat.mod_eq_of_lt hm]
  have hdiv : (m + o / g.no * g.na) / g.na = o / g.no := by
    rw [Nat.add_mul_div_right _ _ hna, Nat.div_eq_of_lt hm, Nat.zero_add]
  rw [hmod, hdiv]
  have h1 : g.lasto.getD m 0 = (g.orbs.take m).sum :=
    lasto_getD g m (by omega)
  have h2 : g.lasto.getD (m + 1) 0 = (g.orbs.take (m + 1)).sum :=
    lasto_getD g (m + 1) (by omega)
  constructor
  · unfold Geometry.a2o
    rw [hmod, hdiv, h1]
    constructor
    · exact le_refl _
    · have : g.lasto.getD m 0 < g.lasto.getD (m + 1) 0 := by omega
      rw [h1, h2] at this
      omega
  · rfl

/-- Witness for C2 at `exO`, orbital index `o = 4` (orbital 1 of replica 1,
owned by the two-orbital atom 0). -/
theorem claim_C2_witness :
    exO.atoms.length = exO.xyz.length ∧ 4 < exO.no * exO.n_s ∧
      (((exO.orbs.take (exO.o2a 4 % exO.na)).sum + (exO.o2a 4 / exO.na) * exO.no
          ≤ exO.a2o (exO.o2a 4) ∧
        exO.a2o (exO.o2a 4) <
          (exO.orbs.take (exO.o2a 4 % exO.na + 1)).sum + (exO.o2a 4 / exO.na) * exO.no) ∧
        exO.o2a 4 / exO.na = 4 / exO.no) :=
  ⟨by decide, by decide, claim_C2_roundtrip exO (by decide) 4 (by decide) (exO.o2a 4) rfl⟩


theorem getD_out {α : Type} (l : List α) (n : ℕ) (h : l.length ≤ n) (d : α) :
    l.getD n d = d := by
  rw [List.getD_eq_getElem?_getD, List.getElem?_eq_none h]
  rfl

theorem getD_map_range {β : Type} (f : ℕ → β) (n k : ℕ) (hk : k < n) (d : β) :
    ((List.range n).map f).getD k d = f k := by
  rw [List.getD_eq_getElem?_getD, List.getElem?_map, List.getElem?_range hk]
  rfl

theorem getLastD_eq_getD {α : Type} (l : List α) (d : α) :
    l.getLastD d = l.getD (l.length - 1) d := by
  rw [List.getLastD_eq_getLast?, List.getLast?_eq_getElem?, List.getD_eq_getElem?_getD]

theorem chainLe_getD_mono (l : List ℚ) (h : List.Chain' (· ≤ ·) l) (i j : ℕ)
    (hij : i ≤ j) (hj : j < l.length) : l.getD i 0 ≤ l.getD j 0 := by
  induction j, hij using Nat.le_induction with
  | base => exact le_refl _
  | succ j hij ih =>
    have hjl : j < l.length := by omega
    have h1 := ih hjl
    have h2 := List.chain'_iff_get.mp h j (by omega)
    have e1 : l.getD j 0 = l.get ⟨j, hjl⟩ := getD_eq_get l j hjl 0
    have e2 : l.getD (j + 1) 0 = l.get ⟨j + 1, hj⟩ := getD_eq_get l (j + 1) hj 0
    rw [e2]
    rw [e1] at h1
    exact le_trans h1 h2

theorem npDiffNeg_eq_false_iff (l : List ℚ) :
    npDiffNeg l = false ↔ List.Chain' (· ≤ ·) l := by
  induction l with
  | nil => simp [npDiffNeg]
  | cons a rest ih =>
    cases rest with
    | nil => simp [npDiffNeg]
    | cons b rest' =>
      rw [List.chain'_cons]
      show (decide (b - a < 0) || npDiffNeg (b :: rest')) = false ↔ _
      rw [Bool.or_eq_false_iff]
      constructor
      · rintro ⟨h1, h2⟩
        have : ¬ (b - a < 0) := by simpa using h1
        exact ⟨by linarith, ih.mp h2⟩
      · rintro ⟨h1, h2⟩
        exact ⟨by simpa using (by linarith : ¬ (b - a < 0)), ih.mpr h2⟩

theorem withinR_mono {g : Geometry} {q : Query} {isc : ℤ × ℤ × ℤ} {j : ℕ} {r r' : ℚ}
    (hrr : r ≤ r') (h : withinR g q isc j r) : withinR g q isc j r' :=
  normLe_mono hrr h

theorem normGt_iff (v : Vec3) (r : ℚ) : normGt v r = true ↔ ¬ normLe v r = true := by
  unfold normGt
  cases normLe v r <;> simp

theorem coords_none_length (g : Geometry) (isc : ℤ × ℤ × ℤ) :
    (g.coords isc none).length = g.na := by
  simp [Geometry.coords, Geometry.na]

theorem dxa_none_getD (g : Geometry) (q : Query) (isc : ℤ × ℤ × ℤ) (p : ℕ)
    (hp : p < g.na) :
    ((g.coords isc none).map (fun r => r - g.qpos q)).getD p vzero = dvec g q isc p := by
  have h1 : p < (g.coords isc none).length := by rw [coords_none_length]; exact hp
  rw [getD_map_inrange _ _ p h1 vzero vzero]
  simp only [Geometry.coords]
  rw [getD_map_inrange _ _ p (by simpa [Geometry.na] using hp) vzero vzero]
  rfl

theorem close_sc_ix (g : Geometry) (q : Query) (isc : ℤ × ℤ × ℤ) (rl : ℚ) :
    ((List.range ((g.coords isc none).map (fun r => r - g.qpos q)).length).filter
        (fun p => normLe (((g.coords isc none).map (fun r => r - g.qpos q)).getD p vzero) rl))
      = (List.range g.na).filter (fun p => normLe (dvec g q isc p) rl) := by
  have hlen : ((g.coords isc none).map (fun r => r - g.qpos q)).length = g.na := by
    simp [coords_none_length]
  rw [hlen]
  apply List.filter_congr
  intro p hp
  rw [dxa_none_getD g q isc p (List.mem_range.mp hp)]

theorem close_sc_none_single (g : Geometry) (q : Query) (isc : ℤ × ℤ × ℤ) (r : ℚ) :
    g.close_sc q isc (some [r]) none =
      .ok (.single ((List.range g.na).filter (fun p => normLe (dvec g q isc p) r))) := by
  unfold Geometry.close_sc
  simp only [List.length_cons, List.length_nil, Nat.zero_add, if_pos]
  rw [close_sc_ix g q isc ((([r] : List ℚ)).getLastD 0)]
  rfl

theorem close_sc_none_multi (g : Geometry) (q : Query) (isc : ℤ × ℤ × ℤ)
    (ddR : List ℚ) (h2 : ddR.length ≠ 1) (hdesc : npDiffNeg ddR = false) :
    g.close_sc q isc (some ddR) none =
      .ok (.multi
        ((((List.range g.na).filter (fun p => normLe (dvec g q isc p) (ddR.getLastD 0))).filter
            (fun p => normLe (dvec g q isc p) (ddR.getD 0 0))) ::
          (List.range (ddR.length - 1)).map (fun i =>
            ((List.range g.na).filter
                (fun p => normLe (dvec g q isc p) (ddR.getLastD 0))).filter
              (fun p => normGt (dvec g q isc p) (ddR.getD i 0) &&
                normLe (dvec g q isc p) (ddR.getD (i + 1) 0))))) := by
  unfold Geometry.close_sc
  rw [if_neg h2, if_neg (by simp [hdesc])]
  rw [close_sc_ix g q isc (ddR.getLastD 0)]
  simp only [List.map_id']
  refine congrArg Except.ok (congrArg SCRet.multi ?_)
  refine congrArg₂ List.cons ?_ ?_
  · apply List.filter_congr
    intro p hp
    have hpna : p < g.na := List.mem_range.mp (List.mem_filter.mp hp).1
    rw [dxa_none_getD g q isc p hpna]
  · apply List.map_congr_left
    intro i hi
    apply List.filter_congr
    intro p hp
    have hpna : p < g.na := List.mem_range.mp (List.mem_filter.mp hp).1
    rw [dxa_none_getD g q isc p hpna]

/-- Disjointness of shell groups, derived from their membership
characterisations. -/
theorem shells_disjoint_of_char (g : Geometry) (q : Query) (isc : ℤ × ℤ × ℤ)
    (ddR : List ℚ) (gs : List (List ℕ)) (hlen : gs.length = ddR.length)
    (hchar0 : ∀ j, j ∈ gs.getD 0 [] ↔ j < g.na ∧ withinR g q isc j (ddR.getD 0 0))
    (hchari : ∀ i, 1 ≤ i → i < ddR.length → ∀ j, j ∈ gs.getD i [] ↔
      j < g.na ∧ ¬ withinR g q isc j (ddR.getD (i - 1) 0) ∧ withinR g q isc j (ddR.getD i 0))
    (hchain : List.Chain' (· ≤ ·) ddR) :
    ∀ i₁ i₂ j, i₁ < i₂ → j ∈ gs.getD i₁ [] → ¬ j ∈ gs.getD i₂ [] := by
  intro i₁ i₂ j h12 h1 h2
  by_cases hi2 : i₂ < ddR.length
  · have hi2' : 1 ≤ i₂ := by omega
    have c2 := (hchari i₂ hi2' hi2 j).mp h2
    have hwi1 : withinR g q isc j (ddR.getD i₁ 0) := by
      by_cases hi1 : i₁ = 0
      · subst hi1; exact ((hchar0 j).mp h1).2
      · exact ((hchari i₁ (by omega) (by omega) j).mp h1).2.2
    have hle : ddR.getD i₁ 0 ≤ ddR.getD (i₂ - 1) 0 :=
      chainLe_getD_mono ddR hchain i₁ (i₂ - 1) (by omega) (by omega)
    exact c2.2.1 (withinR_mono hle hwi1)
  · rw [getD_out gs i₂ (by omega) []] at h2
    simp at h2

/-- Completeness of the shell partition, derived from the membership
characterisations: the union of the shells is exactly the outer ball. -/
theorem shells_union_of_char (g : Geometry) (q : Query) (isc : ℤ × ℤ × ℤ)
    (ddR : List ℚ) (gs : List (List ℕ)) (hne : ddR ≠ [])
    (hlen : gs.length = ddR.length)
    (hchar0 : ∀ j, j ∈ gs.getD 0 [] ↔ j < g.na ∧ withinR g q isc j (ddR.getD 0 0))
    (hchari : ∀ i, 1 ≤ i → i < ddR.length → ∀ j, j ∈ gs.getD i [] ↔
      j < g.na ∧ ¬ withinR g q isc j (ddR.getD (i - 1) 0) ∧ withinR g q isc j (ddR.getD i 0))
    (hchain : List.Chain' (· ≤ ·) ddR) :
    ∀ j, (∃ i, i < gs.length ∧ j ∈ gs.getD i []) ↔
      j < g.na ∧ withinR g q isc j (ddR.getD (ddR.length - 1) 0) := by
  have hlen0 : 0 < ddR.length := List.length_pos.mpr hne
  intro j
  constructor
  · rintro ⟨i, hilen, hmem⟩
    have hi : i < ddR.length := by omega
    by_cases hi0 : i = 0
    · subst hi0
      have h := (hchar0 j).mp hmem
      refine ⟨h.1, withinR_mono ?_ h.2⟩
      exact chainLe_getD_mono ddR hchain 0 (ddR.length - 1) (by omega) (by omega)
    · have h := (hchari i (by omega) hi j).mp hmem
      refine ⟨h.1, withinR_mono ?_ h.2.2⟩
      exact chainLe_getD_mono ddR hchain i (ddR.length - 1) (by omega) (by omega)
  · rintro ⟨hjna, hjw⟩
    have hex : ∃ i, withinR g q isc j (ddR.getD i 0) := ⟨ddR.length - 1, hjw⟩
    have hP := Nat.find_spec hex
    have hi0le : Nat.find hex ≤ ddR.length - 1 := Nat.find_min' hex hjw
    by_cases h0 : Nat.find hex = 0
    · refine ⟨0, by omega, (hchar0 j).mpr ⟨hjna, ?_⟩⟩
      rw [← h0]
      exact hP
    · refine ⟨Nat.find hex, by omega,
        (hchari (Nat.find hex) (by omega) (by omega) j).mpr ⟨hjna, ?_, hP⟩⟩
      exact Nat.find_min hex (by omega)

/-- **C3.** Shell partition: for every query, replica offset and strictly
ascending radii `r0 < r1 < ... < rk`, `close_sc` returns `k+1` groups,
group 0 holding exactly the candidates within `r0`, group `i ≥ 1` exactly
those with `r_{i-1} < d ≤ r_i`; the groups are pairwise disjoint and their
union equals the single-radius result for `rk`. -/
theorem claim_C3_shell_partition (g : Geometry) (q : Query) (isc : ℤ × ℤ × ℤ)
    (ddR : List ℚ) (hne : ddR ≠ []) (hasc : List.Chain' (· < ·) ddR)
    (gs : List (List ℕ)) (hgs : gs = groupsOf (g.close_sc q isc (some ddR) none)) :
    gs.length = ddR.length ∧
    (∀ j, j ∈ gs.getD 0 [] ↔ j < g.na ∧ withinR g q isc j (ddR.getD 0 0)) ∧
    (∀ i, 1 ≤ i → i < ddR.length → ∀ j, j ∈ gs.getD i [] ↔
      j < g.na ∧ ¬ withinR g q isc j (ddR.getD (i - 1) 0) ∧
        withinR g q isc j (ddR.getD i 0)) ∧
    (∀ i₁ i₂ j, i₁ < i₂ → j ∈ gs.getD i₁ [] → ¬ j ∈ gs.getD i₂ []) ∧
    (∀ j, (∃ i, i < gs.length ∧ j ∈ gs.getD i []) ↔
      j ∈ scSingle (g.close_sc q isc (some [ddR.getLastD 0]) none)) := by
  have hlen0 : 0 < ddR.length := List.length_pos.mpr hne
  have hchain : List.Chain' (· ≤ ·) ddR := hasc.imp (fun a b hab => le_of_lt hab)
  have hdesc : npDiffNeg ddR = false := (npDiffNeg_eq_false_iff ddR).mpr hchain
  have hsingle : ∀ j, j ∈ scSingle (g.close_sc q isc (some [ddR.getLastD 0]) none) ↔
      j < g.na ∧ withinR g q isc j (ddR.getLastD 0) := by
    intro j
    rw [close_sc_none_single g q isc (ddR.getLastD 0)]
    show j ∈ (List.range g.na).filter _ ↔ _
    rw [List.mem_filter, List.mem_range]
    exact Iff.rfl
  have hmain : gs.length = ddR.length ∧
      (∀ j, j ∈ gs.getD 0 [] ↔ j < g.na ∧ withinR g q isc j (ddR.getD 0 0)) ∧
      (∀ i, 1 ≤ i → i < ddR.length → ∀ j, j ∈ gs.getD i [] ↔
        j < g.na ∧ ¬ withinR g q isc j (ddR.getD (i - 1) 0) ∧
          withinR g q isc j (ddR.getD i 0)) := by
    by_cases hc : ddR.length = 1
    · obtain ⟨r, hr⟩ := List.length_eq_one.mp hc
      subst hr
      rw [close_sc_none_single g q isc r] at hgs
      simp only [groupsOf] at hgs
      subst hgs
      refine ⟨by simp, ?_, ?_⟩
      · intro j
        simp only [List.getD_cons_zero, List.mem_filter, List.mem_range]
        exact Iff.rfl
      · intro i h1 h2
        have : i < 1 := by simpa using h2
        omega
    · rw [close_sc_none_multi g q isc ddR hc hdesc] at hgs
      simp only [groupsOf] at hgs
      subst hgs
      have hF : ∀ j, j ∈ (List.range g.na).filter
          (fun p => normLe (dvec g q isc p) (ddR.getLastD 0)) ↔
          j < g.na ∧ withinR g q isc j (ddR.getLastD 0) := by
        intro j
        rw [List.mem_filter, List.mem_range]
        exact Iff.rfl
      refine ⟨by simp; omega, ?_, ?_⟩
      · intro j
        simp only [List.getD_cons_zero, List.mem_filter, List.mem_range]
        constructor
        · rintro ⟨⟨hjr, _⟩, hj0⟩
          exact ⟨hjr, hj0⟩
        · rintro ⟨hjr, hj0⟩
          refine ⟨⟨hjr, ?_⟩, hj0⟩
          refine withinR_mono ?_ hj0
          rw [getLastD_eq_getD]
          exact chainLe_getD_mono ddR hchain 0 (ddR.length - 1) (by omega) (by omega)
      · intro i h1 h2 j
        obtain ⟨i', rfl⟩ : ∃ i', i = i' + 1 := ⟨i - 1, by omega⟩
        rw [List.getD_cons_succ]
        rw [getD_map_range _ (ddR.length - 1) i' (by omega) []]
        rw [List.mem_filter, List.mem_filter, List.mem_range]
        simp only [Nat.add_sub_cancel, Bool.and_eq_true]
        constructor
        · rintro ⟨⟨hjr, _⟩, hgt, hle⟩
          exact ⟨hjr, (normGt_iff _ _).mp hgt, hle⟩
        · rintro ⟨hjr, hgt, hle⟩
          refine ⟨⟨hjr, ?_⟩, (normGt_iff _ _).mpr hgt, hle⟩
          refine withinR_mono ?_ hle
          rw [getLastD_eq_getD]
          exact chainLe_getD_mono ddR hchain (i' + 1) (ddR.length - 1) (by omega) (by omega)
  obtain ⟨hlen, hchar0, hchari⟩ := hmain
  refine ⟨hlen, hchar0, hchari, ?_, ?_⟩
  · exact shells_disjoint_of_char g q isc ddR gs hlen hchar0 hchari hchain
  · intro j
    rw [hsingle j, getLastD_eq_getD]
    exact shells_union_of_char g q isc ddR gs hne hlen hchar0 hchari hchain j

/-- Witness for C3: two shells `(0, 1/4]`, `(1/4, 3/4]` around atom 0 of the
two-atom example. -/
theorem claim_C3_witness :
    (([(1 : ℚ)/4, (3 : ℚ)/4] : List ℚ) ≠ []) ∧
    List.Chain' (· < ·) ([(1 : ℚ)/4, (3 : ℚ)/4] : List ℚ) ∧
    (groupsOf (exO.close_sc (Query.atom 0) (0, 0, 0)
        (some [(1 : ℚ)/4, (3 : ℚ)/4]) none)).length = 2 :=
  ⟨by decide, by simp [List.chain'_cons]; norm_num,
    (claim_C3_shell_partition exO (Query.atom 0) (0, 0, 0) [(1 : ℚ)/4, (3 : ℚ)/4]
      (by decide) (by simp [List.chain'_cons]; norm_num) _ rfl).1⟩

theorem close_sc_single_shape (g : Geometry) (q : Query) (isc : ℤ × ℤ × ℤ)
    (r : ℚ) (idx : Option (List ℕ)) :
    ∃ l, g.close_sc q isc (some [r]) idx = .ok (.single l) := by
  unfold Geometry.close_sc
  simp only [List.length_cons, List.length_nil, Nat.zero_add, if_pos]
  exact ⟨_, rfl⟩

theorem close_sc_default_shape (g : Geometry) (q : Query) (isc : ℤ × ℤ × ℤ)
    (idx : Option (List ℕ)) :
    ∃ l, g.close_sc q isc none idx = .ok (.single l) := by
  unfold Geometry.close_sc
  simp only [List.length_cons, List.length_nil, Nat.zero_add, if_pos]
  exact ⟨_, rfl⟩

theorem close_sc_multi_shape (g : Geometry) (q : Query) (isc : ℤ × ℤ × ℤ)
    (ddR : List ℚ) (idx : Option (List ℕ)) (h1 : ddR.length ≠ 1)
    (hdesc : npDiffNeg ddR = false) :
    ∃ gs, g.close_sc q isc (some ddR) idx = .ok (.multi gs) := by
  unfold Geometry.close_sc
  rw [if_neg h1, if_neg (by simp [hdesc])]
  exact ⟨_, rfl⟩

theorem close_sc_multi_error (g : Geometry) (q : Query) (isc : ℤ × ℤ × ℤ)
    (ddR : List ℚ) (idx : Option (List ℕ)) (h1 : ddR.length ≠ 1)
    (hdesc : npDiffNeg ddR = true) :
    ∃ e, g.close_sc q isc (some ddR) idx = .error e := by
  unfold Geometry.close_sc
  rw [if_neg h1, if_pos (by simp [hdesc])]
  exact ⟨_, rfl⟩

theorem closeStep_single (g : Geometry) (c l : List ℕ) (s : ℕ) :
    g.closeStep (if c = [] then CloseRet.noneR else CloseRet.singleR c) s (.single l) =
      (if c ++ l.map (fun j => j + g.na * s) = [] then CloseRet.noneR
        else CloseRet.singleR (c ++ l.map (fun j => j + g.na * s))) := by
  cases l with
  | nil => by_cases hc : c = [] <;> simp [Geometry.closeStep, hc]
  | cons a as => by_cases hc : c = [] <;> simp [Geometry.closeStep, hc]

/-- The accumulator invariant of the `close` loop in the single-radius case:
starting from the partial concatenation `c` (with `[]` represented by the
uninitialised `noneR`), processing replicas `ss` appends their offset
per-replica results. -/
theorem closeLoop_single_spec (g : Geometry) (q : Query) (dR' : Option (List ℚ))
    (idx : Option (List ℕ))
    (hshape : ∀ isc, ∃ l, g.close_sc q isc dR' idx = .ok (.single l)) :
    ∀ (ss : List ℕ) (c : List ℕ),
      g.closeLoop q dR' idx ss (if c = [] then CloseRet.noneR else CloseRet.singleR c) =
        .ok (if c ++ ss.flatMap (fun s =>
              (scSingle (g.close_sc q (g.sc.sc_off.getD s (0, 0, 0)) dR' idx)).map
                (fun j => j + g.na * s)) = [] then CloseRet.noneR
          else CloseRet.singleR (c ++ ss.flatMap (fun s =>
              (scSingle (g.close_sc q (g.sc.sc_off.getD s (0, 0, 0)) dR' idx)).map
                (fun j => j + g.na * s)))) := by
  intro ss
  induction ss with
  | nil => intro c; simp [Geometry.closeLoop]
  | cons s ss ih =>
    intro c
    obtain ⟨l, hl⟩ := hshape (g.sc.sc_off.getD s (0, 0, 0))
    simp only [Geometry.closeLoop, hl]
    rw [closeStep_single]
    rw [ih (c ++ l.map (fun j => j + g.na * s))]
    simp only [List.flatMap_cons, hl, scSingle, List.append_assoc]

/-- **C4 (amended).** Replica additivity for a single radius: whenever at
least one neighbour is found in some replica, `close` returns exactly the
concatenation, in replica-enumeration order, of the per-replica `close_sc`
results with indices offset by `replica_number * na` (no de-duplication);
when that concatenation is empty, `close` instead returns the
uninitialised accumulator (`None`), not an empty index array. -/
theorem claim_C4_replica_additivity (g : Geometry) (q : Query) (r : ℚ)
    (concat : List ℕ)
    (hconcat : concat = (List.range g.n_s).flatMap (fun s =>
      (scSingle (g.close_sc q (g.sc.sc_off.getD s (0, 0, 0)) (some [r]) none)).map
        (fun j => j + g.na * s))) :
    (concat ≠ [] → g.close q (some [r]) none = .ok (.singleR concat)) ∧
    (concat = [] → g.close q (some [r]) none = .ok .noneR) := by
  have hshape := fun isc => close_sc_single_shape g q isc r none
  have h := closeLoop_single_spec g q (some [r]) none hshape (List.range g.n_s) []
  have hnil : (if ([] : List ℕ) = [] then CloseRet.noneR else CloseRet.singleR []) =
      CloseRet.noneR := rfl
  rw [hnil] at h
  simp only [List.nil_append] at h
  rw [← hconcat] at h
  constructor
  · intro hne
    unfold Geometry.close
    rw [h, if_neg hne]
  · intro he
    unfold Geometry.close
    rw [h, if_pos he]

/-- Witness for C4 (amended) on the two-atom, two-replica example with
radius 1: replica 0 contributes atoms 0 and 1, replica 1 contributes atom 0
as supercell index 2. -/
theorem claim_C4_witness :
    ([0, 1, 2] : List ℕ) =
      (List.range exO.n_s).flatMap (fun s =>
        (scSingle (exO.close_sc (Query.atom 0) (exO.sc.sc_off.getD s (0, 0, 0))
            (some [1]) none)).map (fun j => j + exO.na * s)) ∧
    exO.close (Query.atom 0) (some [1]) none = .ok (.singleR [0, 1, 2]) := by
  have hconcat : ([0, 1, 2] : List ℕ) =
      (List.range exO.n_s).flatMap (fun s =>
        (scSingle (exO.close_sc (Query.atom 0) (exO.sc.sc_off.getD s (0, 0, 0))
            (some [1]) none)).map (fun j => j + exO.na * s)) := by
    norm_num [exO, Geometry.n_s, Geometry.na, Geometry.close_sc, Geometry.coords,
      Geometry.qpos, SuperCell.offset, scSingle, normLe, sqNorm, npDiffNeg,
      List.range_succ, List.getD, List.filter, List.getLastD]
  exact ⟨hconcat,
    (claim_C4_replica_additivity exO (Query.atom 0) 1 [0, 1, 2] hconcat).1 (by decide)⟩

/-- Counterexample for C4 as stated: with no atom within the radius in any
replica, `close` returns `None` (`noneR`), which is not the (empty)
concatenation of the per-replica results. -/
theorem claim_C4_counterexample :
    exO.close (Query.point ⟨10, 10, 10⟩) (some [1]) none = .ok .noneR ∧
    ((List.range exO.n_s).flatMap (fun s =>
      (scSingle (exO.close_sc (Query.point ⟨10, 10, 10⟩) (exO.sc.sc_off.getD s (0, 0, 0))
          (some [1]) none)).map (fun j => j + exO.na * s))) = [] ∧
    (Except.ok (CloseRet.singleR []) : Except String CloseRet) ≠ .ok .noneR := by
  have hconcat : ((List.range exO.n_s).flatMap (fun s =>
      (scSingle (exO.close_sc (Query.point ⟨10, 10, 10⟩) (exO.sc.sc_off.getD s (0, 0, 0))
          (some [1]) none)).map (fun j => j + exO.na * s))) = [] := by
    norm_num [exO, Geometry.n_s, Geometry.na, Geometry.close_sc, Geometry.coords,
      Geometry.qpos, SuperCell.offset, scSingle, normLe, sqNorm, npDiffNeg,
      List.range_succ, List.getD, List.filter, List.getLastD]
  exact ⟨(claim_C4_replica_additivity exO (Query.point ⟨10, 10, 10⟩) 1 []
      hconcat.symm).2 rfl, hconcat, by simp⟩

/-- **C9.** When `close` is called with a single radius or the default
radius and every per-replica result is empty, it returns `None` (`noneR`)
rather than an empty index array: the accumulator is never initialised. -/
theorem claim_C9_close_none_on_empty (g : Geometry) (q : Query)
    (dR' : Option (List ℚ))
    (hform : dR' = none ∨ ∃ r, dR' = some [r])
    (hempty : ∀ s ∈ List.range g.n_s,
      scSingle (g.close_sc q (g.sc.sc_off.getD s (0, 0, 0)) dR' none) = []) :
    g.close q dR' none = .ok .noneR := by
  have hshape : ∀ isc, ∃ l, g.close_sc q isc dR' none = .ok (.single l) := by
    rcases hform with h | ⟨r, h⟩
    · subst h; exact fun isc => close_sc_default_shape g q isc none
    · subst h; exact fun isc => close_sc_single_shape g q isc r none
  have h := closeLoop_single_spec g q dR' none hshape (List.range g.n_s) []
  have hnil : (if ([] : List ℕ) = [] then CloseRet.noneR else CloseRet.singleR []) =
      CloseRet.noneR := rfl
  rw [hnil] at h
  simp only [List.nil_append] at h
  have hcc : (List.range g.n_s).flatMap (fun s =>
      (scSingle (g.close_sc q (g.sc.sc_off.getD s (0, 0, 0)) dR' none)).map
        (fun j => j + g.na * s)) = [] := by
    refine List.flatMap_eq_nil_iff.mpr ?_
    intro s hs
    rw [hempty s hs]
    rfl
  rw [hcc] at h
  unfold Geometry.close
  rw [h, if_pos rfl]

/-- Witness for C9: the far-away query finds nothing in either replica of
the example, with the default radius (`dR = None`, resolved to the
structure's maximum cutoff), and `close` returns `noneR`. -/
theorem claim_C9_witness :
    (∀ s ∈ List.range exO.n_s,
      scSingle (exO.close_sc (Query.point ⟨10, 10, 10⟩) (exO.sc.sc_off.getD s (0, 0, 0))
        none none) = []) ∧
    exO.close (Query.point ⟨10, 10, 10⟩) none none = .ok .noneR := by
  have hempty : ∀ s ∈ List.range exO.n_s,
      scSingle (exO.close_sc (Query.point ⟨10, 10, 10⟩) (exO.sc.sc_off.getD s (0, 0, 0))
        none none) = [] := by
    intro s hs
    have hs2 : s < 2 := by simpa [exO, Geometry.n_s] using List.mem_range.mp hs
    interval_cases s <;>
      norm_num [exO, Geometry.n_s, Geometry.na, Geometry.dR, npAmax, Geometry.close_sc,
        Geometry.coords, Geometry.qpos, Geometry.atoms, SuperCell.offset, scSingle,
        normLe, sqNorm, List.range_succ, List.getD, List.filter, List.getLastD,
        List.foldl]
  exact ⟨hempty,
    claim_C9_close_none_on_empty exO (Query.point ⟨10, 10, 10⟩) none (Or.inl rfl) hempty⟩

/-- **C5 (amended).** A multi-radius call (`close_sc` or `close`, the latter
for a structure with at least one replica) fails with an error if and only
if the radii are not weakly ascending, i.e. some adjacent pair strictly
descends; radii that are merely not strictly ascending (equal adjacent
values) are accepted without error. -/
theorem claim_C5_radii_check (g : Geometry) (q : Query) (isc : ℤ × ℤ × ℤ)
    (ddR : List ℚ) (h2 : 2 ≤ ddR.length) (idx : Option (List ℕ)) :
    ((∃ e, g.close_sc q isc (some ddR) idx = .error e) ↔
      ¬ List.Chain' (· ≤ ·) ddR) ∧
    (0 < g.n_s →
      ((∃ e, g.close q (some ddR) idx = .error e) ↔ ¬ List.Chain' (· ≤ ·) ddR)) := by
  have h1 : ddR.length ≠ 1 := by omega
  constructor
  · cases hnd : npDiffNeg ddR with
    | true =>
      have hne := close_sc_multi_error g q isc ddR idx h1 hnd
      constructor
      · intro _ hch
        rw [(npDiffNeg_eq_false_iff ddR).mpr hch] at hnd
        exact Bool.noConfusion hnd
      · intro _
        exact hne
    | false =>
      obtain ⟨gs, hgs⟩ := close_sc_multi_shape g q isc ddR idx h1 hnd
      constructor
      · rintro ⟨e, he⟩
        rw [hgs] at he
        exact absurd he (by simp)
      · intro hcontra
        exact absurd ((npDiffNeg_eq_false_iff ddR).mp hnd) hcontra
  · intro hns
    cases hnd : npDiffNeg ddR with
    | true =>
      obtain ⟨k, hk⟩ : ∃ k, g.n_s = k + 1 := ⟨g.n_s - 1, by omega⟩
      obtain ⟨e, he⟩ := close_sc_multi_error g q (g.sc.sc_off.getD 0 (0, 0, 0)) ddR idx h1 hnd
      constructor
      · intro _ hch
        rw [(npDiffNeg_eq_false_iff ddR).mpr hch] at hnd
        exact Bool.noConfusion hnd
      · intro _
        refine ⟨e, ?_⟩
        unfold Geometry.close
        rw [hk, List.range_succ_eq_map]
        simp only [Geometry.closeLoop, he]
    | false =>
      have hok : ∀ (ss : List ℕ) (acc : CloseRet),
          ∃ w, g.closeLoop q (some ddR) idx ss acc = .ok w := by
        intro ss
        induction ss with
        | nil => intro acc; exact ⟨acc, rfl⟩
        | cons s ss ih =>
          intro acc
          obtain ⟨gs, hgs⟩ := close_sc_multi_shape g q (g.sc.sc_off.getD s (0, 0, 0)) ddR idx h1 hnd
          simp only [Geometry.closeLoop, hgs]
          exact ih _
      constructor
      · rintro ⟨e, he⟩
        obtain ⟨w, hw⟩ := hok (List.range g.n_s) .noneR
        unfold Geometry.close at he
        rw [hw] at he
        exact absurd he (by simp)
      · intro hcontra
        exact absurd ((npDiffNeg_eq_false_iff ddR).mp hnd) hcontra

/-- Witness for C5 (amended): strictly descending radii `[2, 1]` make
`close_sc` raise. -/
theorem claim_C5_witness :
    2 ≤ ([(2 : ℚ), 1] : List ℚ).length ∧
    (∃ e, exO.close_sc (Query.atom 0) (0, 0, 0) (some [(2 : ℚ), 1]) none = .error e) :=
  ⟨by decide,
    ((claim_C5_radii_check exO (Query.atom 0) (0, 0, 0) [(2 : ℚ), 1] (by decide) none).1).mpr
      (by norm_num [List.chain'_cons])⟩

/-- Counterexample for C5 as stated: the radii `[1, 1]` are not strictly
ascending (two equal adjacent radii), yet `close_sc` does not raise — it
returns the two shell groups, the second one empty. -/
theorem claim_C5_counterexample :
    ¬ List.Chain' (· < ·) ([(1 : ℚ), 1] : List ℚ) ∧
    exO.close_sc (Query.atom 0) (0, 0, 0) (some [(1 : ℚ), 1]) none =
      .ok (.multi [[0, 1], []]) := by
  constructor
  · simp [List.chain'_cons]
  · norm_num [exO, Geometry.na, Geometry.close_sc, Geometry.coords, Geometry.qpos,
      SuperCell.offset, normLe, normGt, sqNorm, npDiffNeg, List.range_succ, List.getD,
      List.filter, List.getLastD]

/-- Modelled from the spec: `array_fill_repeat` from the `_help` module (not
under `src/`): cyclically repeats the species array to the requested length
(the `np.tile` pattern), used to expand a short species list to the atom
count. -/
def array_fill_repeat (A : List Atom) (n : ℕ) : List Atom :=
  (List.range n).map (fun i => A.getD (i % A.length) ⟨0, 0⟩)

/-- `Geometry.__init__`: store coordinates, species filled to the atom count
via `array_fill_repeat`, and the supercell; all derived quantities (`na`,
`no`, `lasto`, `dR`) are recomputed as functions of these fields. -/
def mkGeometry (xyz : List Vec3) (atoms : List Atom) (sc : SuperCell) : Geometry :=
  { xyz := xyz, atoms := array_fill_repeat atoms xyz.length, sc := sc }

theorem array_fill_repeat_self (A : List Atom) (n : ℕ) (h : A.length = n) :
    array_fill_repeat A n = A := by
  subst h
  apply List.ext_getElem
  · simp [array_fill_repeat]
  · intro i h1 h2
    simp only [array_fill_repeat, List.getElem_map, List.getElem_range]
    have hi : i < A.length := h2
    rw [Nat.mod_eq_of_lt hi]
    rw [getD_eq_get A i hi]
    simp [List.get_eq_getElem]

namespace Geometry

/-- `Geometry.sub`: the selected unit-cell atoms, in the given order; the
cell defaults to (a copy of) the original unless overridden.  As in the
source, the indices are not checked for uniqueness. -/
def sub (g : Geometry) (atoms : List ℕ) (cell : Option SuperCell) : Geometry :=
  mkGeometry (atoms.map (fun i => g.xyz.getD i vzero))
    (atoms.map (fun i => g.atoms.getD i ⟨0, 0⟩))
    (match cell with | none => g.sc | some c => c)

/-- `Geometry.remove`: `sub` of the complement,
`np.setdiff1d(np.arange(self.na), atoms)`. -/
def remove (g : Geometry) (atoms : List ℕ) : Geometry :=
  g.sub ((List.range g.na).filter (fun i => ! atoms.contains i)) none

/-- `Geometry.tile`: the cell row `axis` is scaled by `reps`; the
coordinates are `reps` block copies of the base coordinates (`np.tile`),
block `k` shifted by `k * cell[axis]`; the species argument is the short
base list, expanded by the constructor. -/
def tile (g : Geometry) (reps : ℕ) (axis : Fin 3) : Geometry :=
  mkGeometry
    ((List.range reps).flatMap (fun k => g.xyz.map (fun p => p + (k : ℚ) • g.sc.cell axis)))
    g.atoms
    { g.sc with cell := Function.update g.sc.cell axis ((reps : ℚ) • g.sc.cell axis) }

/-- `Geometry.repeat`: interleaved expansion — for each original atom its
`reps` shifted copies are emitted consecutively (Bloch-expansion order). -/
def repeat' (g : Geometry) (reps : ℕ) (axis : Fin 3) : Geometry :=
  mkGeometry
    (g.xyz.flatMap (fun p => (List.range reps).map
      (fun (i : ℕ) => p + (i : ℚ) • g.sc.cell axis)))
    (g.atoms.flatMap (fun a => List.replicate reps a))
    { g.sc with cell := Function.update g.sc.cell axis ((reps : ℚ) • g.sc.cell axis) }

end Geometry

/-- `np.allclose(a, b)` with the numpy default tolerances `rtol = 1e-5`,
`atol = 1e-8`: elementwise `|a - b| <= atol + rtol * |b|` over arrays of
equal shape. -/
def npAllclose (a b : List Vec3) : Bool :=
  a.length == b.length &&
    (List.zip a b).all (fun pq =>
      decide (|pq.1.x - pq.2.x| ≤ 1/100000000 + 1/100000 * |pq.2.x|) &&
      decide (|pq.1.y - pq.2.y| ≤ 1/100000000 + 1/100000 * |pq.2.y|) &&
      decide (|pq.1.z - pq.2.z| ≤ 1/100000000 + 1/100000 * |pq.2.z|))

namespace Geometry

/-- `Geometry.cut`: raises unless `na % seps == 0`; otherwise returns the
`(seg % seps)`-th contiguous block of `na // seps` atoms with the cell cut
along `axis`, paired with the flag of the non-fatal `UserWarning` emitted
when re-tiling the result does not reproduce the original coordinates
within `np.allclose` tolerance. -/
def cut (g : Geometry) (seps : ℕ) (axis : Fin 3) (seg : ℕ) :
    Except String (Geometry × Bool) :=
  if g.na % seps ≠ 0 then
    .error "The system cannot be cut into pieces. Please check your geometry and input."
  else
    let lseg := seg % seps
    let sc := g.sc.cut seps axis
    let n := g.na / seps
    let off := n * lseg
    let new := g.sub (List.range' off n) (some sc)
    .ok (new, ! npAllclose ((new.tile seps axis).xyz) g.xyz)

end Geometry

/-- Insertion into a sorted character list (ascending by code point). -/
def insChar (c : Char) : List Char → List Char
  | [] => [c]
  | d :: ds => if c ≤ d then c :: d :: ds else d :: insChar c ds

/-- Python `sorted` on the characters of a string (ascending, stable). -/
def pySorted (l : List Char) : List Char := l.foldr insChar []

namespace Geometry

/-- `Geometry.mirror`: negates the coordinate component orthogonal to the
recognised plane (`xy`, `yz` or `xz`, compared after lowercasing and
sorting the plane name); any other plane name leaves the coordinates
untouched, with no error. -/
def mirror (g : Geometry) (plane : List Char) : Geometry :=
  let lplane := pySorted (plane.map Char.toLower)
  let xyz :=
    if lplane = ['x', 'y'] then g.xyz.map (fun p => ⟨p.x, p.y, -p.z⟩)
    else if lplane = ['y', 'z'] then g.xyz.map (fun p => ⟨-p.x, p.y, p.z⟩)
    else if lplane = ['x', 'z'] then g.xyz.map (fun p => ⟨p.x, -p.y, p.z⟩)
    else g.xyz
  mkGeometry xyz g.atoms g.sc

end Geometry

theorem getD_append_inl {α : Type} (a b : List α) (n : ℕ) (h : n < a.length) (d : α) :
    (a ++ b).getD n d = a.getD n d := by
  rw [List.getD_eq_getElem?_getD, List.getD_eq_getElem?_getD, List.getElem?_append_left h]

theorem getD_append_inr {α : Type} (a b : List α) (n : ℕ) (h : a.length ≤ n) (d : α) :
    (a ++ b).getD n d = b.getD (n - a.length) d := by
  rw [List.getD_eq_getElem?_getD, List.getD_eq_getElem?_getD, List.getElem?_append_right h]

theorem flatMap_blocks_length (f : ℕ → Vec3 → Vec3) (l : List Vec3) :
    ∀ reps : ℕ,
      ((List.range reps).flatMap (fun k => l.map (f k))).length = reps * l.length := by
  intro reps
  induction reps with
  | zero => simp
  | succ r ih =>
    rw [List.range_succ, List.flatMap_append, List.length_append, ih]
    simp [Nat.succ_mul]

theorem flatMap_blocks_getD (f : ℕ → Vec3 → Vec3) (l : List Vec3) :
    ∀ (reps k i : ℕ), k < reps → i < l.length →
      ((List.range reps).flatMap (fun k => l.map (f k))).getD (k * l.length + i) vzero =
        f k (l.getD i vzero) := by
  intro reps
  induction reps with
  | zero => intro k i hk _; omega
  | succ r ih =>
    intro k i hk hi
    rw [List.range_succ, List.flatMap_append]
    by_cases hkr : k < r
    · rw [getD_append_inl]
      · exact ih k i hkr hi
      · rw [flatMap_blocks_length]
        calc k * l.length + i < k * l.length + l.length := by omega
          _ = (k + 1) * l.length := by ring
          _ ≤ r * l.length := Nat.mul_le_mul_right _ (by omega)
    · have hk' : k = r := by omega
      subst hk'
      rw [getD_append_inr]
      · rw [flatMap_blocks_length]
        have harith : k * l.length + i - k * l.length = i := by omega
        rw [harith]
        simp only [List.flatMap_cons, List.flatMap_nil, List.append_nil]
        exact getD_map_inrange (f k) l i hi vzero vzero
      · rw [flatMap_blocks_length]
        omega

theorem flatMap_each_getD (f : ℕ → Vec3 → Vec3) (reps : ℕ) :
    ∀ (l : List Vec3) (i k : ℕ), i < l.length → k < reps →
      (l.flatMap (fun p => (List.range reps).map (fun j => f j p))).getD
        (i * reps + k) vzero = f k (l.getD i vzero) := by
  intro l
  induction l with
  | nil => intro i k hi _; simp at hi
  | cons p rest ih =>
    intro i k hi hk
    rw [List.flatMap_cons]
    match i with
    | 0 =>
      rw [Nat.zero_mul, Nat.zero_add]
      rw [getD_append_inl _ _ k (by simpa using hk)]
      rw [getD_map_range _ reps k hk]
      rfl
    | Nat.succ i' =>
      have harith : (i' + 1) * reps + k = ((List.range reps).map (fun j => f j p)).length
          + (i' * reps + k) := by
        simp [Nat.succ_mul]
        ring
      rw [harith, getD_append_inr _ _ _ (by omega), Nat.add_sub_cancel_left]
      have hi' : i' < rest.length := by simpa using hi
      rw [ih i' k hi' hk]
      rfl

theorem range'_map_getD {α : Type} (l : List α) (d : α) :
    ∀ (n a : ℕ), a + n ≤ l.length →
      (List.range' a n).map (fun i => l.getD i d) = (l.drop a).take n := by
  intro n
  induction n with
  | zero => intro a _; simp
  | succ m ih =>
    intro a ha
    have hal : a < l.length := by omega
    rw [List.range'_succ, List.map_cons, ih (a + 1) (by omega)]
    rw [List.drop_eq_getElem_cons hal]
    rw [List.take_succ_cons]
    rw [getD_eq_get l a hal d]
    simp [List.get_eq_getElem]

/-- **C6 (amended).** `sub` performs no uniqueness validation: every
in-range index list — duplicates included — yields a structure containing
exactly the selected atoms (coordinates and species) in the given order,
with the cell defaulting to (a copy of) the original when not overridden;
`remove` likewise returns the complement with no uniqueness check. -/
theorem claim_C6_sub_remove (g : Geometry) (atoms : List ℕ)
    (_hb : ∀ i ∈ atoms, i < g.na) :
    (g.sub atoms none).na = atoms.length ∧
    (∀ k, k < atoms.length →
      (g.sub atoms none).xyz.getD k vzero = g.xyz.getD (atoms.getD k 0) vzero ∧
      (g.sub atoms none).atoms.getD k ⟨0, 0⟩ = g.atoms.getD (atoms.getD k 0) ⟨0, 0⟩) ∧
    (g.sub atoms none).sc = g.sc ∧
    (g.remove atoms).xyz =
      ((List.range g.na).filter (fun i => ¬ i ∈ atoms)).map
        (fun i => g.xyz.getD i vzero) := by
  refine ⟨?_, ?_, rfl, ?_⟩
  · simp [Geometry.sub, mkGeometry, Geometry.na]
  · intro k hk
    constructor
    · show ((atoms.map (fun i => g.xyz.getD i vzero)).getD k vzero) = _
      rw [getD_map_inrange _ atoms k (by simpa using hk) vzero 0]
    · show ((array_fill_repeat (atoms.map (fun i => g.atoms.getD i ⟨0, 0⟩)) _).getD k ⟨0, 0⟩) = _
      rw [array_fill_repeat_self _ _ (by simp)]
      exact getD_map_inrange (fun i => g.atoms.getD i ⟨0, 0⟩) atoms k
        (by simpa using hk) ⟨0, 0⟩ 0
  · show ((((List.range g.na).filter (fun i => ! atoms.contains i)).map
        (fun i => g.xyz.getD i vzero)) : List Vec3) = _
    congr 1
    apply List.filter_congr
    intro i _
    simp [List.contains]

/-- Counterexample for C6 as stated: `sub` with the duplicated index list
`[0, 0]` raises nothing and returns a structure holding atom 0 twice. -/
theorem claim_C6_counterexample :
    (exO.sub [0, 0] none).na = 2 ∧
    (exO.sub [0, 0] none).xyz = [⟨0, 0, 0⟩, ⟨0, 0, 0⟩] := by
  constructor
  · rfl
  · show ([0, 0].map (fun i => exO.xyz.getD i vzero)) = _
    simp [exO, List.getD]

/-- Witness for C6 (amended) with the unique, order-reversing selection
`[1, 0]`. -/
theorem claim_C6_witness :
    (∀ i ∈ ([1, 0] : List ℕ), i < exO.na) ∧
    (exO.sub [1, 0] none).na = 2 ∧ (exO.sub [1, 0] none).sc = exO.sc :=
  ⟨by decide, (claim_C6_sub_remove exO [1, 0] (by decide)).1,
    (claim_C6_sub_remove exO [1, 0] (by decide)).2.2.1⟩

/-- **C7.** The tile/repeat scenario and ordering contract: on the two-atom
structure at `(0,0,0)`, `(1/2,0,0)` in the unit cube, `tile 2` along axis 0
gives x-coordinates `0, 1/2, 1, 3/2` in order and `repeat 2` gives
`0, 1, 1/2, 3/2`, both with cell x-row scaled to length 2; in general
`tile` is block-contiguous (`xyz[k*na + i] = xyz[i] + k·cell[axis]` for
copy `k`), `repeat` emits each atom's copies consecutively
(`xyz[i*reps + k] = xyz[i] + k·cell[axis]`), and both scale `cell[axis]`
by `reps`. -/
theorem claim_C7_tile_repeat_order :
    ((exO.tile 2 0).xyz =
        [⟨0, 0, 0⟩, ⟨(1 : ℚ)/2, 0, 0⟩, ⟨1, 0, 0⟩, ⟨(3 : ℚ)/2, 0, 0⟩] ∧
      (exO.repeat' 2 0).xyz =
        [⟨0, 0, 0⟩, ⟨1, 0, 0⟩, ⟨(1 : ℚ)/2, 0, 0⟩, ⟨(3 : ℚ)/2, 0, 0⟩] ∧
      (exO.tile 2 0).cell 0 = ⟨2, 0, 0⟩ ∧ (exO.repeat' 2 0).cell 0 = ⟨2, 0, 0⟩) ∧
    (∀ (g : Geometry) (reps : ℕ) (axis : Fin 3),
      (g.tile reps axis).na = reps * g.na ∧
      (g.tile reps axis).cell axis = (reps : ℚ) • g.cell axis ∧
      (g.repeat' reps axis).cell axis = (reps : ℚ) • g.cell axis ∧
      (∀ k i, k < reps → i < g.na →
        (g.tile reps axis).xyz.getD (k * g.na + i) vzero =
          g.xyz.getD i vzero + (k : ℚ) • g.cell axis) ∧
      (∀ i k, i < g.na → k < reps →
        (g.repeat' reps axis).xyz.getD (i * reps + k) vzero =
          g.xyz.getD i vzero + (k : ℚ) • g.cell axis)) := by
  constructor
  · refine ⟨?_, ?_, ?_, ?_⟩
    · show ((List.range 2).flatMap
          (fun k => exO.xyz.map (fun p => p + (k : ℚ) • exO.sc.cell 0))) = _
      simp only [List.range_succ, List.range_zero]
      norm_num [exO]
    · show (exO.xyz.flatMap
          (fun p => (List.range 2).map (fun i => p + (i : ℚ) • exO.sc.cell 0))) = _
      simp only [List.range_succ, List.range_zero]
      norm_num [exO]
    · show (Function.update exO.sc.cell 0 ((2 : ℚ) • exO.sc.cell 0)) 0 = _
      rw [Function.update_same]
      norm_num [exO]
    · show (Function.update exO.sc.cell 0 ((2 : ℚ) • exO.sc.cell 0)) 0 = _
      rw [Function.update_same]
      norm_num [exO]
  · intro g reps axis
    refine ⟨?_, ?_, ?_, ?_, ?_⟩
    · show ((List.range reps).flatMap
          (fun k => g.xyz.map (fun p => p + (k : ℚ) • g.sc.cell axis))).length = _
      rw [flatMap_blocks_length]
      rfl
    · show (Function.update g.sc.cell axis ((reps : ℚ) • g.sc.cell axis)) axis = _
      rw [Function.update_same]
      rfl
    · show (Function.update g.sc.cell axis ((reps : ℚ) • g.sc.cell axis)) axis = _
      rw [Function.update_same]
      rfl
    · intro k i hk hi
      exact flatMap_blocks_getD (fun k p => p + (k : ℚ) • g.sc.cell axis) g.xyz
        reps k i hk hi
    · intro i k hi hk
      show (g.xyz.flatMap
          (fun p => (List.range reps).map
            (fun (j : ℕ) => p + (j : ℚ) • g.sc.cell axis))).getD
            (i * reps + k) vzero = g.xyz.getD i vzero + (k : ℚ) • g.sc.cell axis
      exact flatMap_each_getD (fun j p => p + (j : ℚ) • g.sc.cell axis) reps g.xyz
        i k hi hk

/-- Witness for C7: the last tiled atom sits at `x = 3/2`, obtained from
the general block-ordering clause at copy 1, atom 1. -/
theorem claim_C7_witness :
    (exO.tile 2 0).xyz.getD 3 vzero = ⟨(3 : ℚ)/2, 0, 0⟩ := by
  have h := (claim_C7_tile_repeat_order.2 exO 2 0).2.2.2.1 1 1 (by decide) (by decide)
  have hna : exO.na = 2 := rfl
  rw [hna] at h
  rw [show (1 * 2 + 1 : ℕ) = 3 from rfl] at h
  rw [h]
  norm_num [exO, Geometry.cell, List.getD]

/-- **C8.** `cut(parts, axis, seg)` errors if and only if the atom count is
not divisible by `parts`; on success it returns the `(seg % parts)`-th
contiguous block of `na/parts` atoms with the cell shrunk along `axis` by
the factor `parts`, plus the non-fatal warning flag, which is set exactly
when re-tiling the cut result does not reproduce the original coordinates
within `np.allclose` tolerance — the usable result is returned either
way. -/
theorem claim_C8_cut_contract (g : Geometry) (seps : ℕ) (hseps : 0 < seps)
    (axis : Fin 3) (seg : ℕ) :
    ((∃ e, g.cut seps axis seg = .error e) ↔ ¬ (seps ∣ g.na)) ∧
    (∀ res w, g.cut seps axis seg = .ok (res, w) →
      res.xyz = (g.xyz.drop (g.na / seps * (seg % seps))).take (g.na / seps) ∧
      res.cell axis = (seps : ℚ)⁻¹ • g.cell axis ∧
      (w = true ↔ ¬ npAllclose ((res.tile seps axis).xyz) g.xyz = true)) := by
  by_cases hmod : g.na % seps = 0
  · have hdvd : seps ∣ g.na := Nat.dvd_iff_mod_eq_zero.mpr hmod
    have hcut : g.cut seps axis seg =
        .ok (g.sub (List.range' (g.na / seps * (seg % seps)) (g.na / seps))
            (some (g.sc.cut seps axis)),
          ! npAllclose
            (((g.sub (List.range' (g.na / seps * (seg % seps)) (g.na / seps))
              (some (g.sc.cut seps axis))).tile seps axis).xyz) g.xyz) := by
      unfold Geometry.cut
      rw [if_neg (by simp [hmod])]
    refine ⟨?_, ?_⟩
    · constructor
      · rintro ⟨e, he⟩
        rw [hcut] at he
        exact absurd he (by simp)
      · intro hc
        exact absurd hdvd hc
    · intro res w h
      rw [hcut] at h
      simp only [Except.ok.injEq, Prod.mk.injEq] at h
      obtain ⟨hres, hw⟩ := h
      subst hres
      subst hw
      refine ⟨?_, ?_, ?_⟩
      · show ((List.range' (g.na / seps * (seg % seps)) (g.na / seps)).map
            (fun i => g.xyz.getD i vzero)) = _
        apply range'_map_getD
        have h1 : seg % seps < seps := Nat.mod_lt seg hseps
        have h2 : g.na / seps * seps = g.na := Nat.div_mul_cancel hdvd
        calc g.na / seps * (seg % seps) + g.na / seps
            = g.na / seps * (seg % seps + 1) := by ring
          _ ≤ g.na / seps * seps := Nat.mul_le_mul_left _ (by omega)
          _ = g.xyz.length := h2
      · show (Function.update g.sc.cell axis ((seps : ℚ)⁻¹ • g.sc.cell axis)) axis = _
        rw [Function.update_same]
        rfl
      · cases hnp : npAllclose
            (((g.sub (List.range' (g.na / seps * (seg % seps)) (g.na / seps))
              (some (g.sc.cut seps axis))).tile seps axis).xyz) g.xyz <;> simp
  · have hcut : ∃ e, g.cut seps axis seg = .error e := by
      unfold Geometry.cut
      rw [if_pos hmod]
      exact ⟨_, rfl⟩
    refine ⟨?_, ?_⟩
    · exact iff_of_true hcut (fun hd => hmod (Nat.mod_eq_zero_of_dvd hd))
    · intro res w h
      obtain ⟨e, he⟩ := hcut
      rw [he] at h
      exact absurd h (by simp)

/-- Witness for C8 at a non-divisible cut: three parts of a two-atom
structure raise. -/
theorem claim_C8_witness :
    0 < 3 ∧ ¬ ((3 : ℕ) ∣ exO.na) ∧ (∃ e, exO.cut 3 0 0 = .error e) :=
  ⟨by decide, by decide,
    ((claim_C8_cut_contract exO 3 (by decide) 0 0).1).mpr (by decide)⟩

/-- **C10.** For every plane string whose lowercased, sorted characters are
not exactly `xy`, `yz` or `xz`, `mirror` raises no error and returns a new
structure whose coordinates equal the input coordinates unchanged (a
silent copy with the same cell); only the three recognised plane names
negate a component. -/
theorem claim_C10_mirror_unrecognised (g : Geometry) (plane : List Char)
    (h1 : pySorted (plane.map Char.toLower) ≠ ['x', 'y'])
    (h2 : pySorted (plane.map Char.toLower) ≠ ['y', 'z'])
    (h3 : pySorted (plane.map Char.toLower) ≠ ['x', 'z']) :
    (g.mirror plane).xyz = g.xyz ∧ (g.mirror plane).sc = g.sc := by
  simp only [Geometry.mirror]
  rw [if_neg h1, if_neg h2, if_neg h3]
  exact ⟨rfl, rfl⟩

/-- Witness for C10: the unrecognised plane name `zz` leaves the example
coordinates untouched. -/
theorem claim_C10_witness :
    (pySorted (['z', 'z'].map Char.toLower) ≠ ['x', 'y']) ∧
    (pySorted (['z', 'z'].map Char.toLower) ≠ ['y', 'z']) ∧
    (pySorted (['z', 'z'].map Char.toLower) ≠ ['x', 'z']) ∧
    ((exO.mirror ['z', 'z']).xyz = exO.xyz ∧ (exO.mirror ['z', 'z']).sc = exO.sc) :=
  ⟨by decide, by decide, by decide,
    claim_C10_mirror_unrecognised exO ['z', 'z'] (by decide) (by decide) (by decide)⟩
